import Mathlib

/-!
Verification of the linear-SVM demo (Peroxide_Gallery, Machine_Learning/svm).

The source is a single Rust file using f64 arithmetic. We embed it shallowly
over the rationals: every operation used by the program (dot products,
elementwise scaling, comparisons, the sub-gradient updates, the confusion
matrix counting loop, the Platt target computation and the ROC threshold
sweep) is an exact field operation, so the algorithmic content is faithfully
represented by the same formulas over the exact field.  The nonlinear
Levenberg-Marquardt optimizer inside platt_scaling is an external collaborator
and is outside the claims treated here; only the target-probability
computation of platt_scaling is embedded.
-/

namespace SvmGallery

/-- Peroxide matrix as used by the program: explicit row and column counts
plus row-major data (a list of rows).  The program reads rows with
X.row(i), the row count with X.row and the column count with X.col. -/
structure Matrix where
  row : ℕ
  col : ℕ
  rows : List (List ℚ)

/-- Vector dot product (peroxide dot): sum of elementwise products over the
zipped prefix. -/
def dot (a b : List ℚ) : ℚ := (List.zipWith (fun x y => x * y) a b).sum

/-- Elementwise scalar multiplication (peroxide mul_s). -/
def mul_s (a : List ℚ) (s : ℚ) : List ℚ := a.map (fun x => x * s)

/-- Elementwise scalar addition (peroxide add_s). -/
def add_s (a : List ℚ) (s : ℚ) : List ℚ := a.map (fun x => x + s)

/-- Matrix-vector product (peroxide Matrix::apply): one dot product per row. -/
def Matrix.apply (X : Matrix) (w : List ℚ) : List ℚ :=
  X.rows.map (fun r => dot r w)

/-- Row extraction, X.row(i) in the source.  Out-of-range reads never occur
in the program (the loop runs over 0 .. X.row); the default is irrelevant. -/
def Matrix.rowAt (X : Matrix) (i : ℕ) : List ℚ := X.rows.getD i []

/-- The SVM model struct: hyperparameters lr, lambda, n_iters and mutable
state w (weight), b (bias), cls_map. -/
structure SVM where
  lr : ℚ
  lambda : ℚ
  n_iters : ℕ
  w : List ℚ
  b : ℚ
  cls_map : List ℚ

/-- SVM::new - placeholder one-element weight and class map, zero bias. -/
def SVM.new (lr lambda : ℚ) (n_iters : ℕ) : SVM :=
  { lr := lr, lambda := lambda, n_iters := n_iters,
    w := [0], b := 0, cls_map := [0] }

/-- SVM::init_weight - resize the weight to the column count, zero filled. -/
def SVM.init_weight (m : SVM) (x : Matrix) : SVM :=
  { m with w := List.replicate x.col 0 }

/-- SVM::get_cls_map - any label equal to +1 maps to +1, all others to -1. -/
def SVM.get_cls_map (m : SVM) (y : List ℚ) : SVM :=
  { m with cls_map := y.map (fun x => if x = 1 then (1 : ℚ) else -1) }

/-- SVM::satisfy_constraint - the margin test (w.x + b) * y >= 1. -/
def SVM.satisfy_constraint (m : SVM) (x : List ℚ) (idx : ℕ) : Prop :=
  (dot m.w x + m.b) * m.cls_map.getD idx 0 ≥ 1

instance (m : SVM) (x : List ℚ) (idx : ℕ) :
    Decidable (m.satisfy_constraint x idx) := by
  unfold SVM.satisfy_constraint; infer_instance

/-- The margin quantity tested by satisfy_constraint. -/
def SVM.margin (m : SVM) (x : List ℚ) (idx : ℕ) : ℚ :=
  (dot m.w x + m.b) * m.cls_map.getD idx 0

/-- SVM::get_gradients - regularization-only sub-gradient when the constraint
holds, regularization plus hinge pull otherwise. -/
def SVM.get_gradients (m : SVM) (constrain : Bool) (x : List ℚ) (idx : ℕ) :
    List ℚ × ℚ :=
  if constrain then
    (mul_s m.w m.lambda, 0)
  else
    let y := m.cls_map.getD idx 0
    (List.zipWith (fun w x => m.lambda * w - y * x) m.w x, -y)

/-- SVM::update_weight_bias - immediate per-row update of w and b. -/
def SVM.update_weight_bias (m : SVM) (dw : List ℚ) (db : ℚ) : SVM :=
  { m with
    w := List.zipWith (fun w dw => w - m.lr * dw) m.w dw,
    b := m.b - m.lr * db }

/-- One iteration of the inner loop body of SVM::fit at row i. -/
def fitRow (m : SVM) (X : Matrix) (i : ℕ) : SVM :=
  let x := X.rowAt i
  let constrain := m.satisfy_constraint x i
  let g := m.get_gradients (decide constrain) x i
  m.update_weight_bias g.1 g.2

/-- One full pass of SVM::fit over all rows, in row order. -/
def fitPass (m : SVM) (X : Matrix) : SVM :=
  (List.range X.row).foldl (fun s i => fitRow s X i) m

/-- SVM::fit - initialize the weight and class map, then n_iters passes. -/
def SVM.fit (m : SVM) (X : Matrix) (y : List ℚ) : SVM :=
  let m1 := (m.init_weight X).get_cls_map y
  (List.range m1.n_iters).foldl (fun s _ => fitPass s X) m1

/-- SVM::compute_decision_values - w.x_i + b for every row, unclipped. -/
def SVM.compute_decision_values (m : SVM) (X : Matrix) : List ℚ :=
  add_s (X.apply m.w) m.b

/-- SVM::predict - strict sign test on the decision value. -/
def SVM.predict (m : SVM) (X : Matrix) : List ℚ :=
  (m.compute_decision_values X).map (fun t => if t > 0 then (1 : ℚ) else -1)

/-- SVM::baseline - reset the weight to all-zero (bias untouched), then
predict; returns the mutated model together with the predictions. -/
def SVM.baseline (m : SVM) (X : Matrix) : SVM × List ℚ :=
  let m2 := { m with w := List.replicate X.col 0 }
  (m2, m2.predict X)

/-- The four counts of the confusion matrix. -/
structure ConfusionMatrix where
  TP : ℕ
  TN : ℕ
  FP : ℕ
  FN : ℕ
deriving DecidableEq

/-- One step of the counting loop in ConfusionMatrix::new: classify a single
(label, prediction) pair into one of the four buckets by exact equality
against +1 and -1, or into none of them. -/
def cmStep (cm : ConfusionMatrix) (p : ℚ × ℚ) : ConfusionMatrix :=
  if p.1 = 1 ∧ p.2 = 1 then { cm with TP := cm.TP + 1 }
  else if p.1 = -1 ∧ p.2 = -1 then { cm with TN := cm.TN + 1 }
  else if p.1 = -1 ∧ p.2 = 1 then { cm with FP := cm.FP + 1 }
  else if p.1 = 1 ∧ p.2 = -1 then { cm with FN := cm.FN + 1 }
  else cm

/-- ConfusionMatrix::new - a single pass over the zip of the two sequences
(the Rust iterator zip silently stops at the shorter sequence). -/
def ConfusionMatrix.new (y y_hat : List ℚ) : ConfusionMatrix :=
  (y.zip y_hat).foldl cmStep { TP := 0, TN := 0, FP := 0, FN := 0 }

/-- ConfusionMatrix::tpr - TP / (TP + FN). -/
def ConfusionMatrix.tpr (cm : ConfusionMatrix) : ℚ :=
  (cm.TP : ℚ) / ((cm.TP + cm.FN : ℕ) : ℚ)

/-- ConfusionMatrix::fpr - FP / (FP + TN). -/
def ConfusionMatrix.fpr (cm : ConfusionMatrix) : ℚ :=
  (cm.FP : ℚ) / ((cm.FP + cm.TN : ℕ) : ℚ)

/-- The target-probability computation of platt_scaling: count the labels
exactly equal to +1 and to -1, form the smoothed targets t_p and t_n, and
map every label to its target (label equal to +1 gets t_p, every other
label gets t_n). -/
def plattTargets (y : List ℚ) : List ℚ :=
  let N_p := (y.filter (fun x => x = 1)).length
  let N_n := (y.filter (fun x => x = -1)).length
  let t_p := (1 + (N_p : ℚ)) / (2 + (N_p : ℚ))
  let t_n := 1 / (2 + (N_n : ℚ))
  y.map (fun t => if t = 1 then t_p else t_n)

/-- The constant N of the program (samples per class; the ROC sweep uses
N*2 thresholds). -/
def progN : ℕ := 1000

/-- Peroxide linspace(a, b, n): n equally spaced points from a to b
inclusive, step (b - a) / (n - 1). -/
def linspace (a b : ℚ) (n : ℕ) : List ℚ :=
  (List.range n).map (fun i : ℕ => a + (b - a) * (i : ℚ) / ((n : ℚ) - 1))

/-- The body of the ROC loop at one threshold t: classify probability > t
as +1 else -1, build the confusion matrix against the true labels, and
record the (fpr, tpr) pair. -/
def rocPoint (y z : List ℚ) (t : ℚ) : ℚ × ℚ :=
  let pred := z.map (fun x => if x > t then (1 : ℚ) else -1)
  let cm := ConfusionMatrix.new y pred
  (cm.fpr, cm.tpr)

/-- The ROC sweep of main: one recorded (fpr, tpr) point per threshold in
linspace 0 1 n (the program calls it with n = progN * 2). -/
def rocSweep (y z : List ℚ) (n : ℕ) : List (ℚ × ℚ) :=
  (linspace 0 1 n).map (rocPoint y z)

/-! ### Counting lemmas for the confusion matrix loop -/

lemma cmStep_TP (cm : ConfusionMatrix) (p : ℚ × ℚ) :
    (cmStep cm p).TP = cm.TP + if p.1 = 1 ∧ p.2 = 1 then 1 else 0 := by
  obtain ⟨p1, p2⟩ := p
  by_cases h1 : p1 = 1 <;> by_cases h2 : p1 = -1 <;>
    by_cases h3 : p2 = 1 <;> by_cases h4 : p2 = -1 <;>
      norm_num [cmStep, h1, h2, h3, h4]

lemma cmStep_TN (cm : ConfusionMatrix) (p : ℚ × ℚ) :
    (cmStep cm p).TN = cm.TN + if p.1 = -1 ∧ p.2 = -1 then 1 else 0 := by
  obtain ⟨p1, p2⟩ := p
  by_cases h1 : p1 = 1 <;> by_cases h2 : p1 = -1 <;>
    by_cases h3 : p2 = 1 <;> by_cases h4 : p2 = -1 <;>
      norm_num [cmStep, h1, h2, h3, h4]

lemma cmStep_FP (cm : ConfusionMatrix) (p : ℚ × ℚ) :
    (cmStep cm p).FP = cm.FP + if p.1 = -1 ∧ p.2 = 1 then 1 else 0 := by
  obtain ⟨p1, p2⟩ := p
  by_cases h1 : p1 = 1 <;> by_cases h2 : p1 = -1 <;>
    by_cases h3 : p2 = 1 <;> by_cases h4 : p2 = -1 <;>
      norm_num [cmStep, h1, h2, h3, h4]

lemma cmStep_FN (cm : ConfusionMatrix) (p : ℚ × ℚ) :
    (cmStep cm p).FN = cm.FN + if p.1 = 1 ∧ p.2 = -1 then 1 else 0 := by
  obtain ⟨p1, p2⟩ := p
  by_cases h1 : p1 = 1 <;> by_cases h2 : p1 = -1 <;>
    by_cases h3 : p2 = 1 <;> by_cases h4 : p2 = -1 <;>
      norm_num [cmStep, h1, h2, h3, h4]

/-- A pair lands in one of the four buckets exactly when both components
are literally +1 or -1. -/
def inBucket (p : ℚ × ℚ) : Bool :=
  (decide (p.1 = 1) || decide (p.1 = -1)) && (decide (p.2 = 1) || decide (p.2 = -1))

lemma inBucket_iff (p : ℚ × ℚ) :
    inBucket p = true ↔ (p.1 = 1 ∨ p.1 = -1) ∧ (p.2 = 1 ∨ p.2 = -1) := by
  simp [inBucket]

lemma cmStep_total (cm : ConfusionMatrix) (p : ℚ × ℚ) :
    (cmStep cm p).TP + (cmStep cm p).TN + (cmStep cm p).FP + (cmStep cm p).FN
      = cm.TP + cm.TN + cm.FP + cm.FN +
        if (p.1 = 1 ∨ p.1 = -1) ∧ (p.2 = 1 ∨ p.2 = -1) then 1 else 0 := by
  obtain ⟨p1, p2⟩ := p
  by_cases h1 : p1 = 1 <;> by_cases h2 : p1 = -1 <;>
    by_cases h3 : p2 = 1 <;> by_cases h4 : p2 = -1 <;>
      norm_num [cmStep, h1, h2, h3, h4] <;> omega

lemma cmFold_total (l : List (ℚ × ℚ)) (cm : ConfusionMatrix) :
    (l.foldl cmStep cm).TP + (l.foldl cmStep cm).TN +
    (l.foldl cmStep cm).FP + (l.foldl cmStep cm).FN
      = cm.TP + cm.TN + cm.FP + cm.FN + l.countP inBucket := by
  induction l generalizing cm with
  | nil => simp
  | cons a l ih =>
    simp only [List.foldl_cons, List.countP_cons, ih, cmStep_total]
    by_cases h : (a.1 = 1 ∨ a.1 = -1) ∧ (a.2 = 1 ∨ a.2 = -1) <;>
      simp [inBucket_iff, h] <;> omega

lemma cmFold_TP (l : List (ℚ × ℚ)) (cm : ConfusionMatrix) :
    (l.foldl cmStep cm).TP
      = cm.TP + l.countP (fun p => decide (p.1 = 1) && decide (p.2 = 1)) := by
  induction l generalizing cm with
  | nil => simp
  | cons a l ih =>
    simp only [List.foldl_cons, List.countP_cons, ih, cmStep_TP]
    by_cases h1 : a.1 = 1 <;> by_cases h2 : a.2 = 1 <;> simp [h1, h2] <;> omega

lemma cmFold_TN (l : List (ℚ × ℚ)) (cm : ConfusionMatrix) :
    (l.foldl cmStep cm).TN
      = cm.TN + l.countP (fun p => decide (p.1 = -1) && decide (p.2 = -1)) := by
  induction l generalizing cm with
  | nil => simp
  | cons a l ih =>
    simp only [List.foldl_cons, List.countP_cons, ih, cmStep_TN]
    by_cases h1 : a.1 = -1 <;> by_cases h2 : a.2 = -1 <;> simp [h1, h2] <;> omega

lemma cmFold_FP (l : List (ℚ × ℚ)) (cm : ConfusionMatrix) :
    (l.foldl cmStep cm).FP
      = cm.FP + l.countP (fun p => decide (p.1 = -1) && decide (p.2 = 1)) := by
  induction l generalizing cm with
  | nil => simp
  | cons a l ih =>
    simp only [List.foldl_cons, List.countP_cons, ih, cmStep_FP]
    by_cases h1 : a.1 = -1 <;> by_cases h2 : a.2 = 1 <;> simp [h1, h2] <;> omega

lemma cmFold_FN (l : List (ℚ × ℚ)) (cm : ConfusionMatrix) :
    (l.foldl cmStep cm).FN
      = cm.FN + l.countP (fun p => decide (p.1 = 1) && decide (p.2 = -1)) := by
  induction l generalizing cm with
  | nil => simp
  | cons a l ih =>
    simp only [List.foldl_cons, List.countP_cons, ih, cmStep_FN]
    by_cases h1 : a.1 = 1 <;> by_cases h2 : a.2 = -1 <;> simp [h1, h2] <;> omega

/-- zip only sees the common prefix of its two argument lists. -/
lemma zip_eq_zip_take (y z : List ℚ) :
    y.zip z = (y.take z.length).zip (z.take y.length) := by
  induction y generalizing z with
  | nil => simp
  | cons a y ih =>
    cases z with
    | nil => simp
    | cons b z => simp [List.zip_cons_cons, ih]

/-! ### Indexing and preservation helpers -/

lemma getD_map_of_lt {f : ℚ → ℚ} {l : List ℚ} {i : ℕ} (h : i < l.length)
    (d d2 : ℚ) : (l.map f).getD i d = f (l.getD i d2) := by
  rw [List.getD_eq_getElem?_getD, List.getD_eq_getElem?_getD,
    List.getElem?_map, List.getElem?_eq_getElem h]
  rfl

lemma fitRow_lr (m : SVM) (X : Matrix) (i : ℕ) : (fitRow m X i).lr = m.lr := rfl

lemma fitRow_lambda (m : SVM) (X : Matrix) (i : ℕ) :
    (fitRow m X i).lambda = m.lambda := rfl

lemma fitRow_n_iters (m : SVM) (X : Matrix) (i : ℕ) :
    (fitRow m X i).n_iters = m.n_iters := rfl

lemma fitRow_cls_map (m : SVM) (X : Matrix) (i : ℕ) :
    (fitRow m X i).cls_map = m.cls_map := rfl

lemma foldl_preserves {β γ : Type} {g : SVM → β → SVM} (F : SVM → γ)
    (h : ∀ s a, F (g s a) = F s) :
    ∀ (l : List β) (s : SVM), F (l.foldl g s) = F s := by
  intro l
  induction l with
  | nil => intro s; rfl
  | cons a l ih => intro s; rw [List.foldl_cons, ih, h]

lemma fitPass_lr (m : SVM) (X : Matrix) : (fitPass m X).lr = m.lr :=
  foldl_preserves SVM.lr (fun s i => fitRow_lr s X i) _ m

lemma fitPass_lambda (m : SVM) (X : Matrix) : (fitPass m X).lambda = m.lambda :=
  foldl_preserves SVM.lambda (fun s i => fitRow_lambda s X i) _ m

lemma fitPass_n_iters (m : SVM) (X : Matrix) : (fitPass m X).n_iters = m.n_iters :=
  foldl_preserves SVM.n_iters (fun s i => fitRow_n_iters s X i) _ m

lemma fitPass_cls_map (m : SVM) (X : Matrix) : (fitPass m X).cls_map = m.cls_map :=
  foldl_preserves SVM.cls_map (fun s i => fitRow_cls_map s X i) _ m

lemma fit_lr (m : SVM) (X : Matrix) (y : List ℚ) : (m.fit X y).lr = m.lr := by
  simp only [SVM.fit]
  rw [foldl_preserves SVM.lr (fun s _ => fitPass_lr s X)]
  rfl

lemma fit_lambda (m : SVM) (X : Matrix) (y : List ℚ) :
    (m.fit X y).lambda = m.lambda := by
  simp only [SVM.fit]
  rw [foldl_preserves SVM.lambda (fun s _ => fitPass_lambda s X)]
  rfl

lemma fit_n_iters (m : SVM) (X : Matrix) (y : List ℚ) :
    (m.fit X y).n_iters = m.n_iters := by
  simp only [SVM.fit]
  rw [foldl_preserves SVM.n_iters (fun s _ => fitPass_n_iters s X)]
  rfl

lemma fit_cls_map (m : SVM) (X : Matrix) (y : List ℚ) :
    (m.fit X y).cls_map = y.map (fun x => if x = 1 then (1 : ℚ) else -1) := by
  simp only [SVM.fit]
  rw [foldl_preserves SVM.cls_map (fun s _ => fitPass_cls_map s X)]
  rfl

/-! ### Claim theorems -/

/-- The feature matrix of the hand-computable training scenario:
two rows [2,0] and [-2,0]. -/
def fitDemoX : Matrix := { row := 2, col := 2, rows := [[2, 0], [-2, 0]] }

/-- The labels of the hand-computable training scenario. -/
def fitDemoY : List ℚ := [1, -1]

/-- The state of the scenario model right after init_weight and
get_cls_map, before any row update. -/
def fitDemoM0 : SVM :=
  ((SVM.new (1/10) 0 1).init_weight fitDemoX).get_cls_map fitDemoY

/-- The scenario state after processing row 1. -/
def fitDemoM1 : SVM := fitRow fitDemoM0 fitDemoX 0

/-- The scenario state after processing row 2. -/
def fitDemoM2 : SVM := fitRow fitDemoM1 fitDemoX 1

/-- C1: fit applies per-row immediate (stochastic-style) updates in row
order.  With lr = 1/10, lambda = 0, one iteration, features [[2,0],[-2,0]]
and labels [+1,-1]: starting from w = [0,0], b = 0, row 1 has margin 0 < 1
and updates w to [1/5,0] and b to 1/10; row 2 is processed with those
already-updated values (its margin is 3/10 < 1) and updates w to [2/5,0]
and b to 0; fit of the whole pass equals this two-step sequential
composition, ending with w = [2/5,0] and b = 0. -/
theorem C1_per_row_updates :
    fitDemoM0.w = [0, 0] ∧ fitDemoM0.b = 0 ∧
    fitDemoM0.margin (fitDemoX.rowAt 0) 0 = 0 ∧
    ¬ fitDemoM0.satisfy_constraint (fitDemoX.rowAt 0) 0 ∧
    fitDemoM1.w = [1/5, 0] ∧ fitDemoM1.b = 1/10 ∧
    fitDemoM1.margin (fitDemoX.rowAt 1) 1 = 3/10 ∧
    ¬ fitDemoM1.satisfy_constraint (fitDemoX.rowAt 1) 1 ∧
    fitDemoM2.w = [2/5, 0] ∧ fitDemoM2.b = 0 ∧
    (SVM.new (1/10) 0 1).fit fitDemoX fitDemoY = fitDemoM2 := by
  norm_num [fitDemoM0, fitDemoM1, fitDemoM2, fitDemoY, SVM.fit, SVM.new,
    SVM.init_weight, SVM.get_cls_map, fitPass, fitRow, Matrix.rowAt,
    SVM.margin, SVM.satisfy_constraint, SVM.get_gradients,
    SVM.update_weight_bias, dot, mul_s, fitDemoX, List.range_succ,
    List.replicate_succ, List.zipWith_cons_cons]

/-- C2 counterexample: ConfusionMatrix::new called with sequences of
lengths 2 and 1 does not fail - it returns a confusion matrix built from
the single zipped pair, silently ignoring the extra label. -/
theorem C2_counterexample_no_length_check :
    ConfusionMatrix.new [1, 1] [1] = { TP := 1, TN := 0, FP := 0, FN := 0 } := by
  norm_num [ConfusionMatrix.new, cmStep, List.zip_cons_cons, List.zip_nil_right]

/-- C2 (amended): ConfusionMatrix::new performs no length validation and
cannot fail; it folds over the zip of the two sequences, so only the common
prefix is counted - extra elements of the longer sequence are silently
dropped and the four counts total at most the shorter length. -/
theorem C2_new_truncates_to_common_prefix (y y_hat : List ℚ) :
    ConfusionMatrix.new y y_hat
      = ConfusionMatrix.new (y.take y_hat.length) (y_hat.take y.length) ∧
    (ConfusionMatrix.new y y_hat).TP + (ConfusionMatrix.new y y_hat).TN +
      (ConfusionMatrix.new y y_hat).FP + (ConfusionMatrix.new y y_hat).FN
      ≤ min y.length y_hat.length := by
  constructor
  · unfold ConfusionMatrix.new
    rw [← zip_eq_zip_take]
  · unfold ConfusionMatrix.new
    rw [cmFold_total]
    simp only [Nat.zero_add]
    calc (y.zip y_hat).countP inBucket ≤ (y.zip y_hat).length :=
          List.countP_le_length inBucket
      _ = min y.length y_hat.length := List.length_zip y y_hat

/-- C3 counterexample: a pair whose label is neither +1 nor -1 falls into
none of the four buckets, so for labels [0] and predictions [1] the counts
total 0 while the paired-sequence length is 1. -/
theorem C3_counterexample_dropped_pair :
    (ConfusionMatrix.new [0] [1]).TP + (ConfusionMatrix.new [0] [1]).TN +
      (ConfusionMatrix.new [0] [1]).FP + (ConfusionMatrix.new [0] [1]).FN
      ≠ ([(0 : ℚ)] : List ℚ).length := by
  norm_num [ConfusionMatrix.new, cmStep, List.zip_cons_cons, List.zip_nil_right]

/-- C3 (amended): for every confusion matrix built from label/prediction
sequences of equal length whose values all lie in the set of +1 and -1,
the sum TP + TN + FP + FN equals the paired-sequence length.  (Pairs with
a value outside that set are silently dropped from all counts, so the
unrestricted claim fails.) -/
theorem C3_counts_total_length (y y_hat : List ℚ)
    (hlen : y.length = y_hat.length)
    (hy : ∀ a ∈ y, a = 1 ∨ a = -1)
    (hp : ∀ a ∈ y_hat, a = 1 ∨ a = -1) :
    (ConfusionMatrix.new y y_hat).TP + (ConfusionMatrix.new y y_hat).TN +
      (ConfusionMatrix.new y y_hat).FP + (ConfusionMatrix.new y y_hat).FN
      = y.length := by
  unfold ConfusionMatrix.new
  rw [cmFold_total]
  simp only [Nat.zero_add]
  have hall : ∀ p ∈ y.zip y_hat, inBucket p = true := by
    intro p hpmem
    obtain ⟨h1, h2⟩ := List.of_mem_zip hpmem
    exact (inBucket_iff p).mpr ⟨hy _ h1, hp _ h2⟩
  rw [List.countP_eq_length.mpr hall, List.length_zip, hlen, min_self]

/-- C3 witness: the amended theorem applied to labels [1,-1] and
predictions [1,1]. -/
theorem C3_counts_total_length_witness :
    (ConfusionMatrix.new [1, -1] [1, 1]).TP +
      (ConfusionMatrix.new [1, -1] [1, 1]).TN +
      (ConfusionMatrix.new [1, -1] [1, 1]).FP +
      (ConfusionMatrix.new [1, -1] [1, 1]).FN = 2 :=
  C3_counts_total_length [1, -1] [1, 1] rfl
    (by intro a ha; simp only [List.mem_cons, List.not_mem_nil, or_false] at ha;
        rcases ha with rfl | rfl
        · exact Or.inl rfl
        · exact Or.inr rfl)
    (by intro a ha; simp only [List.mem_cons, List.not_mem_nil, or_false] at ha;
        rcases ha with rfl | rfl
        · exact Or.inl rfl
        · exact Or.inl rfl)

lemma filter_pm_length (y : List ℚ) :
    (y.filter (fun x => x = 1)).length + (y.filter (fun x => x = -1)).length
      = (y.filter (fun x => decide (x = 1) || decide (x = -1))).length := by
  induction y with
  | nil => rfl
  | cons a l ih =>
    by_cases h1 : a = 1 <;> by_cases h2 : a = -1 <;>
      norm_num [List.filter_cons, h1, h2, ih] <;> omega

/-- C4: platt_scaling computes per-example smoothed target probabilities:
label +1 receives (N_pos + 1) / (N_pos + 2) and label -1 receives
1 / (N_neg + 2), where N_pos and N_neg count the labels exactly equal to
+1 and -1 in the full label sequence. -/
theorem C4_platt_targets (y : List ℚ) (i : ℕ) (hi : i < y.length) :
    (plattTargets y).length = y.length ∧
    (y.getD i 0 = 1 →
      (plattTargets y).getD i 0
        = (((y.filter (fun x => x = 1)).length : ℚ) + 1) /
          (((y.filter (fun x => x = 1)).length : ℚ) + 2)) ∧
    (y.getD i 0 = -1 →
      (plattTargets y).getD i 0
        = 1 / (((y.filter (fun x => x = -1)).length : ℚ) + 2)) := by
  refine ⟨by simp [plattTargets], ?_, ?_⟩
  · intro h
    simp only [plattTargets]
    rw [getD_map_of_lt hi 0 0, h]
    norm_num
    ring_nf
  · intro h
    simp only [plattTargets]
    rw [getD_map_of_lt hi 0 0, h]
    norm_num
    ring_nf

/-- C4 witness: for labels [1, -1, 1] the first example has label +1,
N_pos = 2, and target (2 + 1) / (2 + 2) = 3/4. -/
theorem C4_platt_targets_witness :
    0 < ([(1 : ℚ), -1, 1] : List ℚ).length ∧
    ([(1 : ℚ), -1, 1] : List ℚ).getD 0 0 = 1 ∧
    (plattTargets [1, -1, 1]).getD 0 0 = 3 / 4 := by
  refine ⟨by norm_num, rfl, ?_⟩
  have h := (C4_platt_targets [1, -1, 1] 0 (by norm_num)).2.1 rfl
  rw [h]
  norm_num [List.filter_cons]

/-- C5: fit re-derives the internal class map from the labels on every
call: each label exactly equal to +1 is sent to +1 and every other label
value (0, 2, ...) is sent to -1.  The embedded fit is a total function -
no validation error is possible. -/
theorem C5_cls_map_collapse (m : SVM) (X : Matrix) (y : List ℚ) (i : ℕ)
    (hi : i < y.length) :
    (m.fit X y).cls_map = y.map (fun v => if v = 1 then (1 : ℚ) else -1) ∧
    (y.getD i 0 = 1 → (m.fit X y).cls_map.getD i 0 = 1) ∧
    (y.getD i 0 ≠ 1 → (m.fit X y).cls_map.getD i 0 = -1) := by
  refine ⟨fit_cls_map m X y, ?_, ?_⟩ <;> intro h <;>
    rw [fit_cls_map, getD_map_of_lt hi 0 0]
  · rw [if_pos h]
  · rw [if_neg h]

/-- C5 witness: fitting on labels [0, 1, 5] maps label 5 (neither +1 nor
-1) to -1 in the class map. -/
theorem C5_cls_map_collapse_witness :
    2 < ([(0 : ℚ), 1, 5] : List ℚ).length ∧
    (((SVM.new 1 1 1).fit { row := 0, col := 0, rows := [] } [0, 1, 5]).cls_map.getD 2 0
      = -1) := by
  refine ⟨by norm_num, ?_⟩
  exact (C5_cls_map_collapse (SVM.new 1 1 1) { row := 0, col := 0, rows := [] }
    [0, 1, 5] 2 (by norm_num)).2.2 (by norm_num)

/-- C9 (implicit): fit and baseline mutate only w, b and cls_map; the
hyperparameter fields lr, lambda and n_iters are unchanged. -/
theorem C9_hyperparameters_unchanged (m : SVM) (X : Matrix) (y : List ℚ) :
    ((m.fit X y).lr = m.lr ∧ (m.fit X y).lambda = m.lambda ∧
      (m.fit X y).n_iters = m.n_iters) ∧
    ((m.baseline X).1.lr = m.lr ∧ (m.baseline X).1.lambda = m.lambda ∧
      (m.baseline X).1.n_iters = m.n_iters) :=
  ⟨⟨fit_lr m X y, fit_lambda m X y, fit_n_iters m X y⟩, ⟨rfl, rfl, rfl⟩⟩

/-- C10 (implicit): in platt_scaling every example whose label is not
exactly +1 receives the negative-class target 1 / (N_neg + 2) even though
N_neg counts only labels exactly equal to -1; when some label lies outside
the set of +1 and -1, N_pos + N_neg is strictly less than the number of
examples. -/
theorem C10_other_labels_negative_target (y : List ℚ) (i : ℕ)
    (hi : i < y.length) :
    (y.getD i 0 ≠ 1 →
      (plattTargets y).getD i 0
        = 1 / (((y.filter (fun x => x = -1)).length : ℚ) + 2)) ∧
    ((∃ v ∈ y, v ≠ 1 ∧ v ≠ -1) →
      (y.filter (fun x => x = 1)).length + (y.filter (fun x => x = -1)).length
        < y.length) := by
  constructor
  · intro h
    simp only [plattTargets]
    rw [getD_map_of_lt hi 0 0]
    rw [if_neg h]
    ring_nf
  · rintro ⟨v, hv, h1, h2⟩
    rw [filter_pm_length]
    exact List.length_filter_lt_length_iff_exists.mpr ⟨v, hv, by simp [h1, h2]⟩

/-- C10 witness: for labels [0] the single example has label 0, receives
target 1 / (0 + 2) = 1/2, and N_pos + N_neg = 0 < 1. -/
theorem C10_other_labels_negative_target_witness :
    0 < ([(0 : ℚ)] : List ℚ).length ∧
    (plattTargets [0]).getD 0 0 = 1 / 2 ∧
    ([(0 : ℚ)].filter (fun x => x = 1)).length +
      ([(0 : ℚ)].filter (fun x => x = -1)).length < 1 := by
  have h := C10_other_labels_negative_target [0] 0 (by norm_num)
  refine ⟨by norm_num, ?_, ?_⟩
  · have h1 := h.1 (by norm_num)
    rw [h1]
    norm_num [List.filter_cons]
  · have h2 := h.2 ⟨0, by simp, by norm_num, by norm_num⟩
    exact h2

/-- C6: predict returns, for each row, the sign of the decision value
under a strict greater-than-zero test: +1 when w.x + b > 0 and -1
otherwise; a decision value of exactly 0 therefore maps to -1, and every
output element is +1 or -1. -/
theorem C6_predict_sign (m : SVM) (X : Matrix) :
    (m.predict X).length = (m.compute_decision_values X).length ∧
    (∀ v ∈ m.predict X, v = 1 ∨ v = -1) ∧
    (∀ i, i < (m.compute_decision_values X).length →
      ((m.predict X).getD i 0
          = if (m.compute_decision_values X).getD i 0 > 0 then 1 else -1) ∧
      ((m.compute_decision_values X).getD i 0 = 0 →
        (m.predict X).getD i 0 = -1)) := by
  refine ⟨List.length_map _ _, ?_, ?_⟩
  · intro v hv
    obtain ⟨t, _, rfl⟩ := List.mem_map.mp hv
    by_cases h : t > 0
    · exact Or.inl (if_pos h)
    · exact Or.inr (if_neg h)
  · intro i hi
    constructor
    · exact getD_map_of_lt hi 0 0
    · intro h0
      rw [SVM.predict, getD_map_of_lt hi 0 0, h0]
      norm_num

/-- C6 witness: a model with zero weight and zero bias has decision value
exactly 0 on any row, and predict maps it to -1. -/
theorem C6_predict_sign_witness :
    0 < ((SVM.new 1 1 1).compute_decision_values
          { row := 1, col := 1, rows := [[5]] }).length ∧
    ((SVM.new 1 1 1).predict { row := 1, col := 1, rows := [[5]] }).getD 0 0
      = -1 := by
  refine ⟨by norm_num [SVM.compute_decision_values, add_s, Matrix.apply,
    SVM.new], ?_⟩
  refine ((C6_predict_sign (SVM.new 1 1 1)
    { row := 1, col := 1, rows := [[5]] }).2.2 0 (by norm_num
      [SVM.compute_decision_values, add_s, Matrix.apply, SVM.new])).2 ?_
  norm_num [SVM.compute_decision_values, add_s, Matrix.apply, SVM.new, dot]

/-- The reachable model states of the program: states produced by SVM::new
and transformed by any sequence of fit and baseline calls (predict and
compute_decision_values do not mutate the model). -/
inductive Reachable : SVM → Prop
  | new : ∀ (lr lambda : ℚ) (n : ℕ), Reachable (SVM.new lr lambda n)
  | fit : ∀ (m : SVM) (X : Matrix) (y : List ℚ),
      Reachable m → Reachable (m.fit X y)
  | baseline : ∀ (m : SVM) (X : Matrix),
      Reachable m → Reachable (m.baseline X).1

lemma fit_b_of_n_iters_zero (m : SVM) (X : Matrix) (y : List ℚ)
    (h : m.n_iters = 0) : (m.fit X y).b = m.b := by
  simp only [SVM.fit]
  have hn : ((m.init_weight X).get_cls_map y).n_iters = 0 := h
  rw [hn]
  rfl

lemma fit_w_of_n_iters_zero (m : SVM) (X : Matrix) (y : List ℚ)
    (h : m.n_iters = 0) : (m.fit X y).w = List.replicate X.col 0 := by
  simp only [SVM.fit]
  have hn : ((m.init_weight X).get_cls_map y).n_iters = 0 := h
  rw [hn]
  rfl

/-- In every reachable state whose iteration hyperparameter is 0 the bias
is 0: new sets it to 0, fit with n_iters = 0 performs no update step, and
baseline never touches it. -/
lemma reachable_b_zero (m : SVM) (hm : Reachable m) (h : m.n_iters = 0) :
    m.b = 0 := by
  induction hm with
  | new lr lambda n => rfl
  | fit m X y _ ih =>
    have hn : m.n_iters = 0 := by rw [← fit_n_iters m X y]; exact h
    rw [fit_b_of_n_iters_zero m X y hn]
    exact ih hn
  | baseline m X _ ih => exact ih h

/-- C7: after fit with iterations = 0 on any reachable model, the weight
is all-zero with length equal to the feature dimensionality, the bias is
0, and predict on the same features returns exactly the baseline output
(baseline resets the weight to all-zero without touching the bias). -/
theorem C7_fit_zero_iterations (m : SVM) (X : Matrix) (y : List ℚ)
    (hm : Reachable m) (h : m.n_iters = 0) :
    (m.fit X y).w = List.replicate X.col 0 ∧
    (m.fit X y).w.length = X.col ∧
    (m.fit X y).b = 0 ∧
    ((m.fit X y).baseline X).1.w = List.replicate X.col 0 ∧
    ((m.fit X y).baseline X).1.b = (m.fit X y).b ∧
    (m.fit X y).predict X = ((m.fit X y).baseline X).2 := by
  have hw := fit_w_of_n_iters_zero m X y h
  have hb : (m.fit X y).b = 0 := by
    rw [fit_b_of_n_iters_zero m X y h]
    exact reachable_b_zero m hm h
  have hbase : ((m.fit X y).baseline X).1 = m.fit X y := by
    show { m.fit X y with w := List.replicate X.col 0 } = m.fit X y
    rw [← hw]
  refine ⟨hw, by rw [hw]; exact List.length_replicate _ _, hb, ?_, ?_, ?_⟩
  · rw [hbase, hw]
  · rw [hbase]
  · show _ = ((m.fit X y).baseline X).1.predict X
    rw [hbase]

/-- C7 witness: a freshly constructed model with n_iters = 0, fitted on a
one-row matrix. -/
theorem C7_fit_zero_iterations_witness :
    (SVM.new 1 1 0).n_iters = 0 ∧
    ((SVM.new 1 1 0).fit { row := 1, col := 2, rows := [[1, 2]] } [1]).w
      = List.replicate 2 0 ∧
    ((SVM.new 1 1 0).fit { row := 1, col := 2, rows := [[1, 2]] } [1]).b = 0 :=
  ⟨rfl,
    (C7_fit_zero_iterations (SVM.new 1 1 0)
      { row := 1, col := 2, rows := [[1, 2]] } [1]
      (Reachable.new 1 1 0) rfl).1,
    (C7_fit_zero_iterations (SVM.new 1 1 0)
      { row := 1, col := 2, rows := [[1, 2]] } [1]
      (Reachable.new 1 1 0) rfl).2.2.1⟩

/-! ### Lemmas for the ROC sweep -/

lemma getD_map_of_lt2 {α β : Type} {f : α → β} {l : List α} {i : ℕ}
    (h : i < l.length) (d : β) (d2 : α) :
    (l.map f).getD i d = f (l.getD i d2) := by
  rw [List.getD_eq_getElem?_getD, List.getD_eq_getElem?_getD,
    List.getElem?_map, List.getElem?_eq_getElem h]
  rfl

lemma cm_new_threshold_TP (y z : List ℚ) (t : ℚ) :
    (ConfusionMatrix.new y (z.map (fun x => if x > t then (1 : ℚ) else -1))).TP
      = (y.zip z).countP (fun p => decide (p.1 = 1) && decide (p.2 > t)) := by
  unfold ConfusionMatrix.new
  rw [List.zip_map_right, cmFold_TP, Nat.zero_add, List.countP_map]
  apply List.countP_congr
  intro p _
  by_cases h : p.2 > t <;> simp [Prod.map, h] <;> norm_num

lemma cm_new_threshold_FN (y z : List ℚ) (t : ℚ) :
    (ConfusionMatrix.new y (z.map (fun x => if x > t then (1 : ℚ) else -1))).FN
      = (y.zip z).countP (fun p => decide (p.1 = 1) && !decide (p.2 > t)) := by
  unfold ConfusionMatrix.new
  rw [List.zip_map_right, cmFold_FN, Nat.zero_add, List.countP_map]
  apply List.countP_congr
  intro p _
  by_cases h : p.2 > t <;> simp [Prod.map, h] <;> norm_num

lemma cm_new_threshold_FP (y z : List ℚ) (t : ℚ) :
    (ConfusionMatrix.new y (z.map (fun x => if x > t then (1 : ℚ) else -1))).FP
      = (y.zip z).countP (fun p => decide (p.1 = -1) && decide (p.2 > t)) := by
  unfold ConfusionMatrix.new
  rw [List.zip_map_right, cmFold_FP, Nat.zero_add, List.countP_map]
  apply List.countP_congr
  intro p _
  by_cases h : p.2 > t <;> simp [Prod.map, h] <;> norm_num

lemma cm_new_threshold_TN (y z : List ℚ) (t : ℚ) :
    (ConfusionMatrix.new y (z.map (fun x => if x > t then (1 : ℚ) else -1))).TN
      = (y.zip z).countP (fun p => decide (p.1 = -1) && !decide (p.2 > t)) := by
  unfold ConfusionMatrix.new
  rw [List.zip_map_right, cmFold_TN, Nat.zero_add, List.countP_map]
  apply List.countP_congr
  intro p _
  by_cases h : p.2 > t <;> simp [Prod.map, h] <;> norm_num

lemma countP_and_not {α : Type} (l : List α) (p q : α → Bool) :
    l.countP (fun a => p a && q a) + l.countP (fun a => p a && !q a)
      = l.countP p := by
  induction l with
  | nil => rfl
  | cons a l ih =>
    cases hp : p a <;> cases hq : q a <;>
      simp [List.countP_cons, hp, hq] <;> omega

lemma countP_zip_fst (y z : List ℚ) (p : ℚ → Bool)
    (hlen : y.length = z.length) :
    (y.zip z).countP (fun q => p q.1) = y.countP p := by
  induction y generalizing z with
  | nil => simp
  | cons a y ih =>
    cases z with
    | nil => simp at hlen
    | cons b z =>
      simp only [List.zip_cons_cons, List.countP_cons,
        ih z (by simpa using hlen)]

lemma threshold_pos_total (y z : List ℚ) (t : ℚ)
    (hlen : y.length = z.length) :
    (ConfusionMatrix.new y (z.map (fun x => if x > t then (1 : ℚ) else -1))).TP
      + (ConfusionMatrix.new y
          (z.map (fun x => if x > t then (1 : ℚ) else -1))).FN
      = y.countP (fun a => decide (a = 1)) := by
  rw [cm_new_threshold_TP, cm_new_threshold_FN,
    countP_and_not (y.zip z) (fun p => decide (p.1 = 1))
      (fun p => decide (p.2 > t))]
  exact countP_zip_fst y z (fun a => decide (a = 1)) hlen

lemma threshold_neg_total (y z : List ℚ) (t : ℚ)
    (hlen : y.length = z.length) :
    (ConfusionMatrix.new y (z.map (fun x => if x > t then (1 : ℚ) else -1))).FP
      + (ConfusionMatrix.new y
          (z.map (fun x => if x > t then (1 : ℚ) else -1))).TN
      = y.countP (fun a => decide (a = -1)) := by
  rw [cm_new_threshold_FP, cm_new_threshold_TN,
    countP_and_not (y.zip z) (fun p => decide (p.1 = -1))
      (fun p => decide (p.2 > t))]
  exact countP_zip_fst y z (fun a => decide (a = -1)) hlen

lemma rocPoint_at_zero (y z : List ℚ) (hlen : y.length = z.length)
    (hz : ∀ p ∈ z, 0 < p ∧ p < 1)
    (hpos : (1 : ℚ) ∈ y) (hneg : (-1 : ℚ) ∈ y) :
    rocPoint y z 0 = (1, 1) := by
  have congrTP : (y.zip z).countP
        (fun p => decide (p.1 = 1) && decide (p.2 > 0))
      = (y.zip z).countP (fun p => decide (p.1 = 1)) :=
    List.countP_congr (fun p hp => by
      have h2 := (hz p.2 (List.of_mem_zip hp).2).1
      simp [h2])
  have congrFP : (y.zip z).countP
        (fun p => decide (p.1 = -1) && decide (p.2 > 0))
      = (y.zip z).countP (fun p => decide (p.1 = -1)) :=
    List.countP_congr (fun p hp => by
      have h2 := (hz p.2 (List.of_mem_zip hp).2).1
      simp [h2])
  have hTP : (ConfusionMatrix.new y
        (z.map (fun x => if x > 0 then (1 : ℚ) else -1))).TP
      = y.countP (fun a => decide (a = 1)) := by
    rw [cm_new_threshold_TP, congrTP]
    exact countP_zip_fst y z (fun a => decide (a = 1)) hlen
  have hFN : (ConfusionMatrix.new y
        (z.map (fun x => if x > 0 then (1 : ℚ) else -1))).FN = 0 :=
    (cm_new_threshold_FN y z 0).trans (List.countP_eq_zero.mpr
      (fun p hp => by
        have h2 := (hz p.2 (List.of_mem_zip hp).2).1
        simp [h2]))
  have hFP : (ConfusionMatrix.new y
        (z.map (fun x => if x > 0 then (1 : ℚ) else -1))).FP
      = y.countP (fun a => decide (a = -1)) := by
    rw [cm_new_threshold_FP, congrFP]
    exact countP_zip_fst y z (fun a => decide (a = -1)) hlen
  have hTN : (ConfusionMatrix.new y
        (z.map (fun x => if x > 0 then (1 : ℚ) else -1))).TN = 0 :=
    (cm_new_threshold_TN y z 0).trans (List.countP_eq_zero.mpr
      (fun p hp => by
        have h2 := (hz p.2 (List.of_mem_zip hp).2).1
        simp [h2]))
  have hnpos : 0 < y.countP (fun a => decide (a = 1)) :=
    List.countP_pos_iff.mpr ⟨1, hpos, by simp⟩
  have hnneg : 0 < y.countP (fun a => decide (a = -1)) :=
    List.countP_pos_iff.mpr ⟨-1, hneg, by simp⟩
  simp only [rocPoint, ConfusionMatrix.fpr, ConfusionMatrix.tpr,
    hTP, hFN, hFP, hTN, Nat.add_zero]
  rw [div_self (by exact_mod_cast hnneg.ne'),
    div_self (by exact_mod_cast hnpos.ne')]

lemma rocPoint_at_one (y z : List ℚ) (hz : ∀ p ∈ z, 0 < p ∧ p < 1) :
    rocPoint y z 1 = (0, 0) := by
  have hTP : (ConfusionMatrix.new y
        (z.map (fun x => if x > 1 then (1 : ℚ) else -1))).TP = 0 :=
    (cm_new_threshold_TP y z 1).trans (List.countP_eq_zero.mpr
      (fun p hp => by
        have h2 := (hz p.2 (List.of_mem_zip hp).2).2
        simp [not_lt.mpr h2.le]))
  have hFP : (ConfusionMatrix.new y
        (z.map (fun x => if x > 1 then (1 : ℚ) else -1))).FP = 0 :=
    (cm_new_threshold_FP y z 1).trans (List.countP_eq_zero.mpr
      (fun p hp => by
        have h2 := (hz p.2 (List.of_mem_zip hp).2).2
        simp [not_lt.mpr h2.le]))
  simp [rocPoint, ConfusionMatrix.fpr, ConfusionMatrix.tpr, hTP, hFP]

lemma rocPoint_bounds (y z : List ℚ) (t : ℚ) (hlen : y.length = z.length)
    (hpos : (1 : ℚ) ∈ y) (hneg : (-1 : ℚ) ∈ y) :
    0 ≤ (rocPoint y z t).1 ∧ (rocPoint y z t).1 ≤ 1 ∧
    0 ≤ (rocPoint y z t).2 ∧ (rocPoint y z t).2 ≤ 1 := by
  have hp := threshold_pos_total y z t hlen
  have hn := threshold_neg_total y z t hlen
  have hnpos : 0 < y.countP (fun a => decide (a = 1)) :=
    List.countP_pos_iff.mpr ⟨1, hpos, by simp⟩
  have hnneg : 0 < y.countP (fun a => decide (a = -1)) :=
    List.countP_pos_iff.mpr ⟨-1, hneg, by simp⟩
  simp only [rocPoint, ConfusionMatrix.fpr, ConfusionMatrix.tpr]
  refine ⟨div_nonneg (Nat.cast_nonneg _) (Nat.cast_nonneg _), ?_,
    div_nonneg (Nat.cast_nonneg _) (Nat.cast_nonneg _), ?_⟩
  · refine (div_le_one ?_).mpr ?_
    · rw [hn]; exact_mod_cast hnneg
    · exact_mod_cast Nat.le_add_right _ _
  · refine (div_le_one ?_).mpr ?_
    · rw [hp]; exact_mod_cast hnpos
    · exact_mod_cast Nat.le_add_right _ _

lemma range_getD (n i : ℕ) (hi : i < n) : (List.range n).getD i 0 = i := by
  rw [List.getD_eq_getElem?_getD]
  simp [List.getElem?_range, hi]

lemma linspace_getD (a b : ℚ) (n i : ℕ) (hi : i < n) :
    (linspace a b n).getD i 0
      = a + (b - a) * (i : ℚ) / ((n : ℚ) - 1) := by
  unfold linspace
  have hi2 : i < (List.range n).length := by simpa using hi
  rw [getD_map_of_lt2 hi2 0 0, range_getD n i hi]

lemma rocSweep_getD (y z : List ℚ) (n i : ℕ) (hi : i < n) :
    (rocSweep y z n).getD i (0, 0)
      = rocPoint y z ((linspace 0 1 n).getD i 0) := by
  unfold rocSweep
  have hi2 : i < (linspace 0 1 n).length := by simpa [linspace] using hi
  exact getD_map_of_lt2 hi2 (0, 0) 0

/-- C8: the ROC sweep evaluates progN * 2 equally spaced thresholds over
[0,1] (the i-th threshold is i / (2 progN - 1)); at each threshold the
recorded point is the (fpr, tpr) of the confusion matrix of the
probability > threshold classification against the true labels; the first
recorded point (threshold 0) equals (1,1), the last (threshold 1) equals
(0,0), and every recorded point lies in [0,1] x [0,1].  Hypotheses: labels
and probabilities are paired, the calibrated probabilities lie strictly
between 0 and 1 (as sigmoid outputs do), and both classes occur. -/
theorem C8_roc_sweep (y z : List ℚ) (hlen : y.length = z.length)
    (hz : ∀ p ∈ z, 0 < p ∧ p < 1)
    (hpos : (1 : ℚ) ∈ y) (hneg : (-1 : ℚ) ∈ y) :
    (rocSweep y z (progN * 2)).length = progN * 2 ∧
    (∀ i, i < progN * 2 →
      (linspace 0 1 (progN * 2)).getD i 0
          = (i : ℚ) / ((progN : ℚ) * 2 - 1) ∧
      (rocSweep y z (progN * 2)).getD i (0, 0)
          = rocPoint y z ((i : ℚ) / ((progN : ℚ) * 2 - 1))) ∧
    (rocSweep y z (progN * 2)).getD 0 (0, 0) = (1, 1) ∧
    (rocSweep y z (progN * 2)).getD (progN * 2 - 1) (0, 0) = (0, 0) ∧
    (∀ p ∈ rocSweep y z (progN * 2),
      0 ≤ p.1 ∧ p.1 ≤ 1 ∧ 0 ≤ p.2 ∧ p.2 ≤ 1) := by
  have hsp : ∀ i, i < progN * 2 →
      (linspace 0 1 (progN * 2)).getD i 0
        = (i : ℚ) / ((progN : ℚ) * 2 - 1) := by
    intro i hi
    rw [linspace_getD 0 1 _ i hi]
    push_cast
    ring
  refine ⟨by simp [rocSweep, linspace], ?_, ?_, ?_, ?_⟩
  · intro i hi
    refine ⟨hsp i hi, ?_⟩
    rw [rocSweep_getD y z _ i hi, hsp i hi]
  · have h0 : (0 : ℕ) < progN * 2 := by norm_num [progN]
    rw [rocSweep_getD y z _ 0 h0, hsp 0 h0]
    have : ((0 : ℕ) : ℚ) / ((progN : ℚ) * 2 - 1) = 0 := by norm_num
    rw [this]
    exact rocPoint_at_zero y z hlen hz hpos hneg
  · have h1 : progN * 2 - 1 < progN * 2 := by norm_num [progN]
    rw [rocSweep_getD y z _ _ h1, hsp _ h1]
    have : ((progN * 2 - 1 : ℕ) : ℚ) / ((progN : ℚ) * 2 - 1) = 1 := by
      norm_num [progN]
    rw [this]
    exact rocPoint_at_one y z hz
  · intro p hp
    obtain ⟨t, _, rfl⟩ := List.mem_map.mp hp
    exact rocPoint_bounds y z t hlen hpos hneg

/-- C8 witness: labels [1,-1] with probabilities [3/4,1/4]; the first and
last recorded ROC points are (1,1) and (0,0). -/
theorem C8_roc_sweep_witness :
    ([(1 : ℚ), -1] : List ℚ).length = ([(3 : ℚ)/4, 1/4] : List ℚ).length ∧
    (rocSweep [1, -1] [3/4, 1/4] (progN * 2)).getD 0 (0, 0) = (1, 1) ∧
    (rocSweep [1, -1] [3/4, 1/4] (progN * 2)).getD (progN * 2 - 1) (0, 0)
      = (0, 0) := by
  have h := C8_roc_sweep [1, -1] [3/4, 1/4] rfl
    (by intro p hp
        simp only [List.mem_cons, List.not_mem_nil, or_false] at hp
        rcases hp with rfl | rfl <;> norm_num)
    (by simp) (by simp)
  exact ⟨rfl, h.2.2.1, h.2.2.2.1⟩

end SvmGallery
